import Mathlib

/-!
Verification of the immutable sorted-map core of the Firestore `immutable`
component, together with the test helpers in
`Firestore/core/test/firebase/firestore/immutable/testing.h`.

The sorted-map implementation itself (`ArraySortedMap`, `TreeSortedMap`) is
not part of the provided sources, so the two representations are modelled
from the specification: an array representation holding an ascending
sequence of key/value entries, and a persistent red/black tree whose nodes
carry a color, a cached subtree size, and the entry.  Keys and values are
`Int`, matching the integer instantiation used throughout the tests
(`BatchId`/`TargetId` are `int32_t` aliases).

The test helpers `Sequence` and `Reversed` are translated directly from
`testing.h`.
-/

namespace FirestoreImmutable

/-! ## Array representation, modelled from the spec

Modelled from the spec: `ArraySortedMap` is an immutable ordered sequence of
key/value pairs sorted ascending by key.  `insert` places the entry at its
sorted position (replacing an equal key), `remove` drops the entry when
present and returns the receiver unchanged when absent, `find`/`contains`
locate an entry by key, `size` is the sequence length.  The ascending
iteration of an array map is the sequence itself. -/

/-- An entry is a key/value pair; the array map is the sorted entry list. -/
abbrev Entry := Int × Int

/-- Modelled from the spec: strictly increasing keys, no duplicates. -/
def EntriesSorted (l : List Entry) : Prop :=
  List.Pairwise (fun p q : Entry => p.1 < q.1) l

instance (l : List Entry) : Decidable (EntriesSorted l) := by
  unfold EntriesSorted; infer_instance

/-- Modelled from the spec: insert an entry at its sorted position, replacing
the entry with an equal key when present; all other entries are copied
unchanged in relative order. -/
def listInsert : List Entry → Int → Int → List Entry
  | [], k, v => [(k, v)]
  | (a, b) :: t, k, v =>
    if k < a then (k, v) :: (a, b) :: t
    else if a < k then (a, b) :: listInsert t k v
    else (k, v) :: t

/-- Modelled from the spec: remove the entry with the given key when present;
when absent the receiver list is returned unchanged. -/
def listRemove : List Entry → Int → List Entry
  | [], _ => []
  | (a, b) :: t, k =>
    if k < a then (a, b) :: t
    else if a < k then (a, b) :: listRemove t k
    else t

/-- Modelled from the spec: look up the value stored at the given key of a
sorted entry sequence; a missing key yields `none`, never a failure. -/
def listFind : List Entry → Int → Option Int
  | [], _ => none
  | (a, b) :: t, k =>
    if k < a then none
    else if a < k then listFind t k
    else some b

/-- Modelled from the spec: key-membership test for the array map. -/
def listContains (l : List Entry) (k : Int) : Bool :=
  (listFind l k).isSome

/-- Node color of the red/black balance attribute. -/
inductive Color where
  | red
  | black
deriving DecidableEq, Repr

/-- A persistent red/black tree node: color, cached subtree size, left
child, key, value, right child (or the empty sentinel). -/
inductive RBT where
  | nil
  | node (c : Color) (sz : Nat) (l : RBT) (k : Int) (v : Int) (r : RBT)
deriving DecidableEq, Repr

namespace RBT

open Color

/-- The cached size stored at the root (0 for the empty tree). -/
def size : RBT → Nat
  | nil => 0
  | node _ sz _ _ _ _ => sz

/-- Smart constructor: every node is built with its cached subtree size
recomputed as `1 + left.size + right.size`. -/
def mkN (c : Color) (l : RBT) (k v : Int) (r : RBT) : RBT :=
  node c (l.size + r.size + 1) l k v r

/-- The number of nodes, counted recursively (used as a termination
measure; agrees with the cached size on well-formed trees). -/
def nodes : RBT → Nat
  | nil => 0
  | node _ _ l _ _ r => nodes l + nodes r + 1

/-- Ascending in-order traversal: the entry sequence of the tree map. -/
def inorder : RBT → List Entry
  | nil => []
  | node _ _ l k v r => inorder l ++ (k, v) :: inorder r

/-- Height of the tree (0 for the empty tree). -/
def height : RBT → Nat
  | nil => 0
  | node _ _ l _ _ r => max (height l) (height r) + 1

/-- Repaint the root black. -/
def setBlack : RBT → RBT
  | nil => nil
  | node _ sz l k v r => node black sz l k v r

/-- Repaint the root red. -/
def setRed : RBT → RBT
  | nil => nil
  | node _ sz l k v r => node red sz l k v r

/-- True exactly for a black non-empty node. -/
def blackRoot : RBT → Bool
  | node black _ _ _ _ _ => true
  | _ => false

/-- Rebalance after an insertion into the left child of a black node,
resolving a possible red-red violation there. -/
def baliL : RBT → Int → Int → RBT → RBT
  | node red _ (node red _ t₁ k₁ v₁ t₂) k₂ v₂ t₃, k, v, r =>
    mkN red (mkN black t₁ k₁ v₁ t₂) k₂ v₂ (mkN black t₃ k v r)
  | node red _ t₁ k₁ v₁ (node red _ t₂ k₂ v₂ t₃), k, v, r =>
    mkN red (mkN black t₁ k₁ v₁ t₂) k₂ v₂ (mkN black t₃ k v r)
  | l, k, v, r => mkN black l k v r

/-- Rebalance after an insertion into the right child of a black node,
resolving a possible red-red violation there. -/
def baliR : RBT → Int → Int → RBT → RBT
  | l, k, v, node red _ t₂ k₂ v₂ (node red _ t₃ k₃ v₃ t₄) =>
    mkN red (mkN black l k v t₂) k₂ v₂ (mkN black t₃ k₃ v₃ t₄)
  | l, k, v, node red _ (node red _ t₂ k₂ v₂ t₃) k₃ v₃ t₄ =>
    mkN red (mkN black l k v t₂) k₂ v₂ (mkN black t₃ k₃ v₃ t₄)
  | l, k, v, r => mkN black l k v r

/-- Recursive insertion: descend by comparison, construct a new leaf at an
empty position or replace the value at an equal key, and rebuild each
ancestor on the way back up, rebalancing below black nodes. -/
def ins : RBT → Int → Int → RBT
  | nil, k, v => mkN red nil k v nil
  | node red _ l a b r, k, v =>
    if k < a then mkN red (ins l k v) a b r
    else if a < k then mkN red l a b (ins r k v)
    else mkN red l k v r
  | node black _ l a b r, k, v =>
    if k < a then baliL (ins l k v) a b r
    else if a < k then baliR l a b (ins r k v)
    else mkN black l k v r

/-- Modelled from the spec: `insert` produces a new tree sharing untouched
subtrees with the receiver; the root of the result is painted black. -/
def insert (t : RBT) (k v : Int) : RBT :=
  setBlack (ins t k v)

/-- Rebalance after a deletion in the left child lowered its black height. -/
def balL (l : RBT) (k v : Int) (r : RBT) : RBT :=
  match l with
  | node red _ a x y b => mkN red (mkN black a x y b) k v r
  | l =>
    match r with
    | node black _ a x y b => baliR l k v (mkN red a x y b)
    | node red _ (node black _ a x y b) z w c =>
      mkN red (mkN black l k v a) x y (baliR b z w (setRed c))
    | r => mkN red l k v r

/-- Rebalance after a deletion in the right child lowered its black height. -/
def balR (l : RBT) (k v : Int) (r : RBT) : RBT :=
  match r with
  | node red _ b x y c => mkN red l k v (mkN black b x y c)
  | r =>
    match l with
    | node black _ a x y b => baliL (mkN red a x y b) k v r
    | node red _ a x y (node black _ b z w c) =>
      mkN red (baliL (setRed a) x y b) z w (mkN black c k v r)
    | l => mkN red l k v r

/-- Join the two children of a deleted node into one tree. -/
def combine : RBT → RBT → RBT
  | nil, t => t
  | t, nil => t
  | node red _ a x y b, node red _ c z w d =>
    match combine b c with
    | node red _ b' x' y' c' => mkN red (mkN red a x y b') x' y' (mkN red c' z w d)
    | bc => mkN red a x y (mkN red bc z w d)
  | node black _ a x y b, node black _ c z w d =>
    match combine b c with
    | node red _ b' x' y' c' => mkN red (mkN black a x y b') x' y' (mkN black c' z w d)
    | bc => balL a x y (mkN black bc z w d)
  | t, node red _ b x y c => mkN red (combine t b) x y c
  | node red _ a x y b, t => mkN red a x y (combine b t)
termination_by t₁ t₂ => nodes t₁ + nodes t₂
decreasing_by all_goals simp [nodes]; omega

/-- Recursive deletion: descend by comparison; at the matched node join the
two children; rebalance on the way back up whenever the modified child was
rooted black (its black height dropped). -/
def del : RBT → Int → RBT
  | nil, _ => nil
  | node _ _ l a b r, k =>
    if k < a then
      if blackRoot l then balL (del l k) a b r else mkN red (del l k) a b r
    else if a < k then
      if blackRoot r then balR l a b (del r k) else mkN red l a b (del r k)
    else combine l r

/-- Modelled from the spec: `remove` produces a new tree without the given
key (unchanged semantics when the key is absent); the root of the result is
painted black. -/
def remove (t : RBT) (k : Int) : RBT :=
  setBlack (del t k)

/-- Modelled from the spec: standard BST descent by comparison; a missing
key yields `none`, never a failure. -/
def find : RBT → Int → Option Int
  | nil, _ => none
  | node _ _ l a b r, k =>
    if k < a then find l k
    else if a < k then find r k
    else some b

/-- Modelled from the spec: key-membership test for the tree map. -/
def contains (t : RBT) (k : Int) : Bool :=
  (find t k).isSome

/-- Cached-size consistency: every node's cached size equals
`1 + left.size + right.size`, recursively. -/
def SzOk : RBT → Prop
  | nil => True
  | node _ sz l _ _ r => sz = size l + size r + 1 ∧ SzOk l ∧ SzOk r

instance : (t : RBT) → Decidable (SzOk t)
  | nil => by unfold SzOk; infer_instance
  | node _ _ l _ _ r =>
    have : Decidable (SzOk l) := instDecidableSzOk l
    have : Decidable (SzOk r) := instDecidableSzOk r
    by unfold SzOk; infer_instance

/-- The red/black balance invariant: `Bal t c n` states that `t` is rooted
with color `c`, has black height `n`, no red node has a red child, and every
path from the root to an empty position passes `n` black nodes. -/
inductive Bal : RBT → Color → Nat → Prop where
  | nil : Bal nil black 0
  | red {l r : RBT} {k v n sz} :
      Bal l black n → Bal r black n → Bal (node red sz l k v r) red n
  | black {l r : RBT} {k v n sz c₁ c₂} :
      Bal l c₁ n → Bal r c₂ n → Bal (node black sz l k v r) black (n + 1)

/-- Weakened balance invariant arising inside `ins` and `del`: balanced, or
(when `p` holds) a red root over two balanced children of black height `n`,
possibly with a red-red violation at the root. -/
inductive RR (p : Prop) : RBT → Nat → Prop where
  | balanced {t c n} : Bal t c n → RR p t n
  | redred {a b : RBT} {k v n sz c₁ c₂} :
      p → Bal a c₁ n → Bal b c₂ n → RR p (node red sz a k v b) n

end RBT

/-- True exactly for a red non-empty node (the root-color test used by the
insertion balance argument). -/
def RBT.redRoot : RBT → Bool
  | RBT.node Color.red _ _ _ _ _ => true
  | _ => false

/-- The balance property of `del`: deleting below a black root lowers the
black height by one and may leave a root red-red violation; deleting below
a red or empty root preserves the black height and yields a balanced tree. -/
def RBT.DelBal (isB : Bool) (t : RBT) (n : Nat) : Prop :=
  if isB then ∃ m, n = m + 1 ∧ RBT.RR True t m else ∃ c, RBT.Bal t c n

/-- Modelled from the spec: the array map reports its size as the sequence
length. -/
def listSize (l : List Entry) : Nat :=
  l.length

/-! ## Operation sequences

Modelled from the spec: a map is built by an arbitrary finite sequence of
insert and remove operations starting from the empty map; the same sequence
can be applied to the array representation and to the tree representation
directly. -/

/-- One map operation of the common interface. -/
inductive MapOp where
  | insert (k v : Int)
  | remove (k : Int)
deriving DecidableEq, Repr

/-- Apply one operation to the array representation. -/
def applyArr (m : List Entry) : MapOp → List Entry
  | MapOp.insert k v => listInsert m k v
  | MapOp.remove k => listRemove m k

/-- Run a whole operation sequence on the empty array map. -/
def runArr (ops : List MapOp) : List Entry :=
  ops.foldl applyArr []

/-- Apply one operation to the tree representation. -/
def applyTree (t : RBT) : MapOp → RBT
  | MapOp.insert k v => t.insert k v
  | MapOp.remove k => t.remove k

/-- Run a whole operation sequence on the empty tree map. -/
def runTree (ops : List MapOp) : RBT :=
  ops.foldl applyTree RBT.nil

/-! ## Test helpers, translated from `testing.h` -/

/-- One iteration budget step of the loops in `Sequence`: the embedding of
`Sequence(start, end, step)` from `testing.h`, with an explicit fuel bound
on the number of loop iterations.  `none` means the fuel was exhausted
while the loop guard still held; the C++ loop would keep running there.
Ascending branch: `for (int i = start; i < end; i += step)`. -/
def seqLoopUp (fuel : Nat) (i e step : Int) (acc : List Int) : Option (List Int) :=
  match fuel with
  | 0 => if i < e then none else some acc
  | f + 1 => if i < e then seqLoopUp f (i + step) e step (acc ++ [i]) else some acc

/-- Descending branch of `Sequence`: `for (int i = start; i > end; i += step)`. -/
def seqLoopDown (fuel : Nat) (i e step : Int) (acc : List Int) : Option (List Int) :=
  match fuel with
  | 0 => if e < i then none else some acc
  | f + 1 => if e < i then seqLoopDown f (i + step) e step (acc ++ [i]) else some acc

/-- Embedding of `Sequence(start, end, step)` from `testing.h`, fuelled:
if `step > 0` run the ascending loop, otherwise the descending loop.
`some result` is the vector returned by the C++ function when its loop
performs at most `fuel` iterations; `none` when the loop is still running
after `fuel` iterations. -/
def SequenceFuel (fuel : Nat) (start e step : Int) : Option (List Int) :=
  if step > 0 then seqLoopUp fuel start e step []
  else seqLoopDown fuel start e step []

/-- Embedding of `Reversed` from `testing.h`: a copy of the vector with
contents reversed. -/
def Reversed (values : List Int) : List Int :=
  values.reverse

/-! ## Properties of the array representation -/

theorem mem_listInsert {l : List Entry} {k v : Int} {x : Entry}
    (h : x ∈ listInsert l k v) : x = (k, v) ∨ x ∈ l := by
  induction l with
  | nil => simpa [listInsert] using h
  | cons hd t ih =>
    obtain ⟨a, b⟩ := hd
    simp only [listInsert] at h
    split at h
    · simpa using h
    · split at h
      · rcases List.mem_cons.1 h with h' | h'
        · exact Or.inr (List.mem_cons.2 (Or.inl h'))
        · rcases ih h' with h'' | h''
          · exact Or.inl h''
          · exact Or.inr (List.mem_cons.2 (Or.inr h''))
      · rcases List.mem_cons.1 h with h' | h'
        · exact Or.inl h'
        · exact Or.inr (List.mem_cons.2 (Or.inr h'))

theorem listInsert_sorted {l : List Entry} (k v : Int) (h : EntriesSorted l) :
    EntriesSorted (listInsert l k v) := by
  induction l with
  | nil => simp [listInsert, EntriesSorted]
  | cons hd t ih =>
    obtain ⟨a, b⟩ := hd
    rw [EntriesSorted, List.pairwise_cons] at h
    obtain ⟨ha, ht⟩ := h
    simp only [listInsert]
    split
    · rename_i hk
      rw [EntriesSorted, List.pairwise_cons]
      refine ⟨?_, List.pairwise_cons.2 ⟨ha, ht⟩⟩
      intro x hx
      rcases List.mem_cons.1 hx with h' | h'
      · subst h'; exact hk
      · exact lt_trans hk (ha x h')
    · split
      · rename_i hk₁ hk₂
        rw [EntriesSorted, List.pairwise_cons]
        refine ⟨?_, ih ht⟩
        intro x hx
        rcases mem_listInsert hx with h' | h'
        · subst h'; exact hk₂
        · exact ha x h'
      · rename_i hk₁ hk₂
        have hek : k = a := le_antisymm (not_lt.1 hk₂) (not_lt.1 hk₁)
        subst hek
        exact List.pairwise_cons.2 ⟨ha, ht⟩

theorem listFind_listInsert (l : List Entry) (k v : Int) :
    listFind (listInsert l k v) k = some v := by
  induction l with
  | nil => simp [listInsert, listFind]
  | cons hd t ih =>
    obtain ⟨a, b⟩ := hd
    simp only [listInsert]
    split
    · simp [listFind]
    · split
      · rename_i hk₁ hk₂
        simp only [listFind, if_neg hk₁, if_pos hk₂]
        exact ih
      · simp [listFind]

theorem listFind_of_forall_lt {l : List Entry} {k : Int}
    (h : ∀ x ∈ l, k < x.1) : listFind l k = none := by
  cases l with
  | nil => rfl
  | cons hd t =>
    obtain ⟨a, b⟩ := hd
    have : k < a := h (a, b) (List.mem_cons_self _ _)
    simp [listFind, this]

theorem listFind_listRemove_self {l : List Entry} (k : Int) (h : EntriesSorted l) :
    listFind (listRemove l k) k = none := by
  induction l with
  | nil => rfl
  | cons hd t ih =>
    obtain ⟨a, b⟩ := hd
    rw [EntriesSorted, List.pairwise_cons] at h
    obtain ⟨ha, ht⟩ := h
    simp only [listRemove]
    split
    · rename_i hk; simp [listFind, hk]
    · split
      · rename_i hk₁ hk₂
        simp only [listFind, if_neg hk₁, if_pos hk₂]
        exact ih ht
      · rename_i hk₁ hk₂
        have hek : k = a := le_antisymm (not_lt.1 hk₂) (not_lt.1 hk₁)
        subst hek
        exact listFind_of_forall_lt ha

theorem listRemove_absent {l : List Entry} {k : Int}
    (h : listFind l k = none) : listRemove l k = l := by
  induction l with
  | nil => rfl
  | cons hd t ih =>
    obtain ⟨a, b⟩ := hd
    simp only [listFind] at h
    simp only [listRemove]
    split
    · rfl
    · split
      · rename_i hk₁ hk₂
        rw [if_neg hk₁, if_pos hk₂] at h
        rw [ih h]
      · rename_i hk₁ hk₂
        rw [if_neg hk₁, if_neg hk₂] at h
        exact absurd h (by simp)

theorem listRemove_sublist (l : List Entry) (k : Int) :
    List.Sublist (listRemove l k) l := by
  induction l with
  | nil => simp [listRemove]
  | cons hd t ih =>
    obtain ⟨a, b⟩ := hd
    simp only [listRemove]
    split
    · exact List.Sublist.refl _
    · split
      · exact List.Sublist.cons₂ _ ih
      · exact List.sublist_cons_self _ _

theorem listRemove_sorted {l : List Entry} (k : Int) (h : EntriesSorted l) :
    EntriesSorted (listRemove l k) :=
  List.Pairwise.sublist (listRemove_sublist l k) h

theorem length_listInsert_le (l : List Entry) (k v : Int) :
    (listInsert l k v).length ≤ l.length + 1 := by
  induction l with
  | nil => simp [listInsert]
  | cons hd t ih =>
    obtain ⟨a, b⟩ := hd
    simp only [listInsert]
    split
    · simp
    · split
      · simpa using ih
      · simp

theorem length_listRemove_le (l : List Entry) (k : Int) :
    (listRemove l k).length ≤ l.length :=
  (listRemove_sublist l k).length_le

theorem listInsert_append_lt {l₁ l₂ : List Entry} {a b k : Int} (v : Int)
    (h : k < a) :
    listInsert (l₁ ++ (a, b) :: l₂) k v = listInsert l₁ k v ++ (a, b) :: l₂ := by
  induction l₁ with
  | nil => simp [listInsert, h]
  | cons hd t ih =>
    obtain ⟨c, d⟩ := hd
    simp only [List.cons_append, listInsert]
    split
    · rfl
    · split
      · simp [ih]
      · rfl

theorem listInsert_append_gt {l₁ l₂ : List Entry} {a b k : Int} (v : Int)
    (h : a < k) (h₁ : ∀ x ∈ l₁, x.1 < k) :
    listInsert (l₁ ++ (a, b) :: l₂) k v = l₁ ++ (a, b) :: listInsert l₂ k v := by
  induction l₁ with
  | nil => simp [listInsert, not_lt.2 (le_of_lt h), h]
  | cons hd t ih =>
    obtain ⟨c, d⟩ := hd
    have hc : c < k := h₁ (c, d) (List.mem_cons_self _ _)
    simp only [List.cons_append, listInsert, if_neg (not_lt.2 (le_of_lt hc)), if_pos hc,
      List.append_eq]
    rw [ih (fun x hx => h₁ x (List.mem_cons_of_mem _ hx))]

theorem listInsert_append_eq {l₁ l₂ : List Entry} {b k : Int} (v : Int)
    (h₁ : ∀ x ∈ l₁, x.1 < k) :
    listInsert (l₁ ++ (k, b) :: l₂) k v = l₁ ++ (k, v) :: l₂ := by
  induction l₁ with
  | nil => simp [listInsert]
  | cons hd t ih =>
    obtain ⟨c, d⟩ := hd
    have hc : c < k := h₁ (c, d) (List.mem_cons_self _ _)
    simp only [List.cons_append, listInsert, if_neg (not_lt.2 (le_of_lt hc)), if_pos hc,
      List.append_eq]
    rw [ih (fun x hx => h₁ x (List.mem_cons_of_mem _ hx))]

theorem listRemove_append_lt {l₁ l₂ : List Entry} {a b k : Int}
    (h : k < a) :
    listRemove (l₁ ++ (a, b) :: l₂) k = listRemove l₁ k ++ (a, b) :: l₂ := by
  induction l₁ with
  | nil => simp [listRemove, h]
  | cons hd t ih =>
    obtain ⟨c, d⟩ := hd
    simp only [List.cons_append, listRemove]
    split
    · rfl
    · split
      · simp [ih]
      · rfl

theorem listRemove_append_gt {l₁ l₂ : List Entry} {a b k : Int}
    (h : a < k) (h₁ : ∀ x ∈ l₁, x.1 < k) :
    listRemove (l₁ ++ (a, b) :: l₂) k = l₁ ++ (a, b) :: listRemove l₂ k := by
  induction l₁ with
  | nil => simp [listRemove, not_lt.2 (le_of_lt h), h]
  | cons hd t ih =>
    obtain ⟨c, d⟩ := hd
    have hc : c < k := h₁ (c, d) (List.mem_cons_self _ _)
    simp only [List.cons_append, listRemove, if_neg (not_lt.2 (le_of_lt hc)), if_pos hc,
      List.append_eq]
    rw [ih (fun x hx => h₁ x (List.mem_cons_of_mem _ hx))]

theorem listRemove_append_eq {l₁ l₂ : List Entry} {b k : Int}
    (h₁ : ∀ x ∈ l₁, x.1 < k) :
    listRemove (l₁ ++ (k, b) :: l₂) k = l₁ ++ l₂ := by
  induction l₁ with
  | nil => simp [listRemove]
  | cons hd t ih =>
    obtain ⟨c, d⟩ := hd
    have hc : c < k := h₁ (c, d) (List.mem_cons_self _ _)
    simp only [List.cons_append, listRemove, if_neg (not_lt.2 (le_of_lt hc)), if_pos hc,
      List.append_eq]
    rw [ih (fun x hx => h₁ x (List.mem_cons_of_mem _ hx))]

theorem listFind_append_lt {l₁ l₂ : List Entry} {a b k : Int}
    (h : k < a) :
    listFind (l₁ ++ (a, b) :: l₂) k = listFind l₁ k := by
  induction l₁ with
  | nil => simp [listFind, h]
  | cons hd t ih =>
    obtain ⟨c, d⟩ := hd
    simp only [List.cons_append, listFind]
    split
    · rfl
    · split
      · exact ih
      · rfl

theorem listFind_append_gt {l₁ l₂ : List Entry} {a b k : Int}
    (h : a < k) (h₁ : ∀ x ∈ l₁, x.1 < k) :
    listFind (l₁ ++ (a, b) :: l₂) k = listFind l₂ k := by
  induction l₁ with
  | nil => simp [listFind, not_lt.2 (le_of_lt h), h]
  | cons hd t ih =>
    obtain ⟨c, d⟩ := hd
    have hc : c < k := h₁ (c, d) (List.mem_cons_self _ _)
    simp only [List.cons_append, listFind, if_neg (not_lt.2 (le_of_lt hc)), if_pos hc,
      List.append_eq]
    exact ih (fun x hx => h₁ x (List.mem_cons_of_mem _ hx))

theorem listFind_append_eq {l₁ l₂ : List Entry} {b k : Int}
    (h₁ : ∀ x ∈ l₁, x.1 < k) :
    listFind (l₁ ++ (k, b) :: l₂) k = some b := by
  induction l₁ with
  | nil => simp [listFind]
  | cons hd t ih =>
    obtain ⟨c, d⟩ := hd
    have hc : c < k := h₁ (c, d) (List.mem_cons_self _ _)
    simp only [List.cons_append, listFind, if_neg (not_lt.2 (le_of_lt hc)), if_pos hc,
      List.append_eq]
    exact ih (fun x hx => h₁ x (List.mem_cons_of_mem _ hx))

/-! ## Tree representation, modelled from the spec

Modelled from the spec: `TreeSortedMap` is a persistent balanced binary
search tree.  Each node carries a red/black color, the cached size of its
subtree (`size = 1 + left.size + right.size`), the entry, and the two
children.  Insertion descends by comparison, constructs the new leaf, and
rebuilds/rebalances the ancestors bottom-up; removal descends, splices out
the matched node by joining its children, and rebalances bottom-up. -/

namespace RBT

open Color

@[simp] theorem inorder_mkN (c : Color) (l : RBT) (k v : Int) (r : RBT) :
    inorder (mkN c l k v r) = inorder l ++ (k, v) :: inorder r := rfl

@[simp] theorem inorder_setBlack (t : RBT) : inorder (setBlack t) = inorder t := by
  cases t <;> rfl

@[simp] theorem inorder_setRed (t : RBT) : inorder (setRed t) = inorder t := by
  cases t <;> rfl

theorem inorder_baliL (l : RBT) (k v : Int) (r : RBT) :
    inorder (baliL l k v r) = inorder l ++ (k, v) :: inorder r := by
  unfold baliL
  split <;> simp [inorder]

theorem inorder_baliR (l : RBT) (k v : Int) (r : RBT) :
    inorder (baliR l k v r) = inorder l ++ (k, v) :: inorder r := by
  unfold baliR
  split <;> simp [inorder]

theorem inorder_balL (l : RBT) (k v : Int) (r : RBT) :
    inorder (balL l k v r) = inorder l ++ (k, v) :: inorder r := by
  unfold balL
  split
  · simp [inorder]
  · split <;> simp [inorder, inorder_baliR]

theorem inorder_balR (l : RBT) (k v : Int) (r : RBT) :
    inorder (balR l k v r) = inorder l ++ (k, v) :: inorder r := by
  unfold balR
  split
  · simp [inorder]
  · split <;> simp [inorder, inorder_baliL]

theorem cons_append_chunk (L₁ : List Entry) (p : Entry) (L₂ X : List Entry) :
    L₁ ++ p :: (L₂ ++ X) = (L₁ ++ p :: L₂) ++ X := by
  simp

theorem inorder_combine (l r : RBT) :
    inorder (combine l r) = inorder l ++ inorder r := by
  induction l, r using combine.induct with
  | case1 t => simp [combine, inorder]
  | case2 t h => rw [combine.eq_def]; cases t <;> simp [inorder]
  | case3 sz a x y b sz₁ c z w d sz₂ a₁ x₁ y₁ b₁ heq ih =>
    have ih₂ : inorder a₁ ++ (x₁, y₁) :: inorder b₁ = inorder b ++ inorder c := by
      simpa [heq, inorder] using ih
    have h₃ : inorder a₁ ++ (x₁, y₁) :: (inorder b₁ ++ (z, w) :: inorder d)
        = inorder b ++ (inorder c ++ (z, w) :: inorder d) := by
      have := congrArg (fun L => L ++ (z, w) :: inorder d) ih₂
      simpa using this
    rw [combine.eq_def]
    simp only [heq]
    simp [inorder, mkN, h₃]
  | case4 sz a x y b sz₁ c z w d hne ih =>
    cases hbc : combine b c with
    | nil =>
      rw [combine.eq_def]
      simp only [hbc]
      rw [← hbc]
      simp [inorder, mkN, ih]
    | node cbc szbc lbc kbc vbc rbc =>
      cases cbc with
      | red => exact absurd hbc (by intro h; exact hne _ _ _ _ _ h)
      | black =>
        rw [combine.eq_def]
        simp only [hbc]
        rw [← hbc]
        simp [inorder, mkN, ih]
  | case5 sz a x y b sz₁ c z w d sz₂ a₁ x₁ y₁ b₁ heq ih =>
    have ih₂ : inorder a₁ ++ (x₁, y₁) :: inorder b₁ = inorder b ++ inorder c := by
      simpa [heq, inorder] using ih
    have h₃ : inorder a₁ ++ (x₁, y₁) :: (inorder b₁ ++ (z, w) :: inorder d)
        = inorder b ++ (inorder c ++ (z, w) :: inorder d) := by
      have := congrArg (fun L => L ++ (z, w) :: inorder d) ih₂
      simpa using this
    rw [combine.eq_def]
    simp only [heq]
    simp [inorder, mkN, h₃]
  | case6 sz a x y b sz₁ c z w d hne ih =>
    cases hbc : combine b c with
    | nil =>
      rw [combine.eq_def]
      simp only [hbc]
      rw [← hbc]
      simp [inorder_balL, inorder, mkN, ih]
    | node cbc szbc lbc kbc vbc rbc =>
      cases cbc with
      | red => exact absurd hbc (by intro h; exact hne _ _ _ _ _ h)
      | black =>
        rw [combine.eq_def]
        simp only [hbc]
        rw [← hbc]
        simp [inorder_balL, inorder, mkN, ih]
  | case7 t sz b x y c h₁ h₂ ih =>
    cases t with
    | nil => exact absurd rfl h₁
    | node ct szt lt kt vt rt =>
      cases ct with
      | red => exact absurd rfl (h₂ _ _ _ _ _)
      | black =>
        rw [combine.eq_def]
        simp [inorder, mkN, ih]
  | case8 sz a x y b t h₁ h₂ h₃ ih =>
    cases t with
    | nil => exact absurd rfl h₁
    | node ct szt lt kt vt rt =>
      cases ct with
      | red => exact absurd rfl (h₂ _ _ _ _ _)
      | black =>
        rw [combine.eq_def]
        simp [inorder, mkN, ih]

@[simp] theorem size_mkN (c : Color) (l : RBT) (k v : Int) (r : RBT) :
    size (mkN c l k v r) = size l + size r + 1 := rfl

@[simp] theorem size_setBlack (t : RBT) : size (setBlack t) = size t := by
  cases t <;> rfl

@[simp] theorem size_setRed (t : RBT) : size (setRed t) = size t := by
  cases t <;> rfl

theorem szOk_mkN (c : Color) (k v : Int) {l r : RBT}
    (hl : SzOk l) (hr : SzOk r) : SzOk (mkN c l k v r) := by
  simp [mkN, SzOk, hl, hr]

theorem szOk_setBlack {t : RBT} (h : SzOk t) : SzOk (setBlack t) := by
  cases t with
  | nil => exact h
  | node c sz l k v r => simpa [setBlack, SzOk] using h

theorem szOk_setRed {t : RBT} (h : SzOk t) : SzOk (setRed t) := by
  cases t with
  | nil => exact h
  | node c sz l k v r => simpa [setRed, SzOk] using h

theorem szOk_baliL {l r : RBT} (k v : Int) (hl : SzOk l) (hr : SzOk r) :
    SzOk (baliL l k v r) := by
  unfold baliL
  split <;> simp_all [SzOk, mkN, size]

theorem szOk_baliR {l r : RBT} (k v : Int) (hl : SzOk l) (hr : SzOk r) :
    SzOk (baliR l k v r) := by
  unfold baliR
  split <;> simp_all [SzOk, mkN, size]

theorem szOk_balL {l r : RBT} (k v : Int) (hl : SzOk l) (hr : SzOk r) :
    SzOk (balL l k v r) := by
  unfold balL
  split
  · simp_all [SzOk, mkN, size]
  · split
    · rename_i a x y b
      refine szOk_baliR _ _ hl ?_
      exact szOk_mkN _ _ _ (by simp_all [SzOk]) (by simp_all [SzOk])
    · rename_i a x y b z w c
      refine szOk_mkN _ _ _ (szOk_mkN _ _ _ hl (by simp_all [SzOk])) ?_
      exact szOk_baliR _ _ (by simp_all [SzOk]) (szOk_setRed (by simp_all [SzOk]))
    · simp_all [SzOk, mkN, size]

theorem szOk_balR {l r : RBT} (k v : Int) (hl : SzOk l) (hr : SzOk r) :
    SzOk (balR l k v r) := by
  unfold balR
  split
  · simp_all [SzOk, mkN, size]
  · split
    · rename_i a x y b
      refine szOk_baliL _ _ ?_ hr
      exact szOk_mkN _ _ _ (by simp_all [SzOk]) (by simp_all [SzOk])
    · rename_i a x y b z w c
      refine szOk_mkN _ _ _ ?_ (szOk_mkN _ _ _ (by simp_all [SzOk]) hr)
      exact szOk_baliL _ _ (szOk_setRed (by simp_all [SzOk])) (by simp_all [SzOk])
    · simp_all [SzOk, mkN, size]

theorem szOk_combine {l r : RBT} (hl : SzOk l) (hr : SzOk r) :
    SzOk (combine l r) := by
  induction l, r using combine.induct with
  | case1 t => simpa [combine] using hr
  | case2 t h => rw [combine.eq_def]; cases t <;> simp_all
  | case3 sz a x y b sz₁ c z w d sz₂ a₁ x₁ y₁ b₁ heq ih =>
    have hsub : SzOk (node red sz₂ a₁ x₁ y₁ b₁) := by
      rw [← heq]
      exact ih (by simp_all [SzOk]) (by simp_all [SzOk])
    rw [combine.eq_def]
    simp only [heq]
    refine szOk_mkN _ _ _ (szOk_mkN _ _ _ (by simp_all [SzOk]) (by simp_all [SzOk]))
      (szOk_mkN _ _ _ (by simp_all [SzOk]) (by simp_all [SzOk]))
  | case4 sz a x y b sz₁ c z w d hne ih =>
    have hsub : SzOk (combine b c) := ih (by simp_all [SzOk]) (by simp_all [SzOk])
    cases hbc : combine b c with
    | nil =>
      rw [combine.eq_def]
      simp only [hbc]
      rw [← hbc]
      exact szOk_mkN _ _ _ (by simp_all [SzOk])
        (szOk_mkN _ _ _ hsub (by simp_all [SzOk]))
    | node cbc szbc lbc kbc vbc rbc =>
      cases cbc with
      | red => exact absurd hbc (by intro h; exact hne _ _ _ _ _ h)
      | black =>
        rw [combine.eq_def]
        simp only [hbc]
        rw [← hbc]
        exact szOk_mkN _ _ _ (by simp_all [SzOk])
          (szOk_mkN _ _ _ hsub (by simp_all [SzOk]))
  | case5 sz a x y b sz₁ c z w d sz₂ a₁ x₁ y₁ b₁ heq ih =>
    have hsub : SzOk (node red sz₂ a₁ x₁ y₁ b₁) := by
      rw [← heq]
      exact ih (by simp_all [SzOk]) (by simp_all [SzOk])
    rw [combine.eq_def]
    simp only [heq]
    refine szOk_mkN _ _ _ (szOk_mkN _ _ _ (by simp_all [SzOk]) (by simp_all [SzOk]))
      (szOk_mkN _ _ _ (by simp_all [SzOk]) (by simp_all [SzOk]))
  | case6 sz a x y b sz₁ c z w d hne ih =>
    have hsub : SzOk (combine b c) := ih (by simp_all [SzOk]) (by simp_all [SzOk])
    cases hbc : combine b c with
    | nil =>
      rw [combine.eq_def]
      simp only [hbc]
      rw [← hbc]
      exact szOk_balL _ _ (by simp_all [SzOk])
        (szOk_mkN _ _ _ hsub (by simp_all [SzOk]))
    | node cbc szbc lbc kbc vbc rbc =>
      cases cbc with
      | red => exact absurd hbc (by intro h; exact hne _ _ _ _ _ h)
      | black =>
        rw [combine.eq_def]
        simp only [hbc]
        rw [← hbc]
        exact szOk_balL _ _ (by simp_all [SzOk])
          (szOk_mkN _ _ _ hsub (by simp_all [SzOk]))
  | case7 t sz b x y c h₁ h₂ ih =>
    cases t with
    | nil => exact absurd rfl h₁
    | node ct szt lt kt vt rt =>
      cases ct with
      | red => exact absurd rfl (h₂ _ _ _ _ _)
      | black =>
        have hsub : SzOk (combine (node black szt lt kt vt rt) b) :=
          ih hl (by simp_all [SzOk])
        rw [combine.eq_def]
        exact szOk_mkN _ _ _ hsub (by simp_all [SzOk])
  | case8 sz a x y b t h₁ h₂ h₃ ih =>
    cases t with
    | nil => exact absurd rfl h₁
    | node ct szt lt kt vt rt =>
      cases ct with
      | red => exact absurd rfl (h₂ _ _ _ _ _)
      | black =>
        have hsub : SzOk (combine b (node black szt lt kt vt rt)) :=
          ih (by simp_all [SzOk]) hr
        rw [combine.eq_def]
        exact szOk_mkN _ _ _ (by simp_all [SzOk]) hsub

theorem szOk_ins {t : RBT} (k v : Int) (h : SzOk t) : SzOk (ins t k v) := by
  induction t with
  | nil => simp [ins, mkN, SzOk, size]
  | node c sz l a b r ihl ihr =>
    have hl : SzOk l := by simp_all [SzOk]
    have hr : SzOk r := by simp_all [SzOk]
    cases c with
    | red =>
      simp only [ins]
      split
      · exact szOk_mkN _ _ _ (ihl hl) hr
      · split
        · exact szOk_mkN _ _ _ hl (ihr hr)
        · exact szOk_mkN _ _ _ hl hr
    | black =>
      simp only [ins]
      split
      · exact szOk_baliL _ _ (ihl hl) hr
      · split
        · exact szOk_baliR _ _ hl (ihr hr)
        · exact szOk_mkN _ _ _ hl hr

theorem szOk_del {t : RBT} (k : Int) (h : SzOk t) : SzOk (del t k) := by
  induction t with
  | nil => simpa [del] using h
  | node c sz l a b r ihl ihr =>
    have hl : SzOk l := by simp_all [SzOk]
    have hr : SzOk r := by simp_all [SzOk]
    simp only [del]
    split
    · split
      · exact szOk_balL _ _ (ihl hl) hr
      · exact szOk_mkN _ _ _ (ihl hl) hr
    · split
      · split
        · exact szOk_balR _ _ hl (ihr hr)
        · exact szOk_mkN _ _ _ hl (ihr hr)
      · exact szOk_combine hl hr

theorem szOk_insert {t : RBT} (k v : Int) (h : SzOk t) : SzOk (insert t k v) :=
  szOk_setBlack (szOk_ins k v h)

theorem szOk_remove {t : RBT} (k : Int) (h : SzOk t) : SzOk (remove t k) :=
  szOk_setBlack (szOk_del k h)

theorem size_eq_length_inorder {t : RBT} (h : SzOk t) :
    size t = (inorder t).length := by
  induction t with
  | nil => rfl
  | node c sz l k v r ihl ihr =>
    have hl : SzOk l := by simp_all [SzOk]
    have hr : SzOk r := by simp_all [SzOk]
    have hsz : sz = size l + size r + 1 := by simp_all [SzOk]
    calc size (node c sz l k v r) = sz := rfl
    _ = size l + size r + 1 := hsz
    _ = (inorder l).length + (inorder r).length + 1 := by rw [ihl hl, ihr hr]
    _ = (inorder (node c sz l k v r)).length := by simp [inorder]; omega

theorem sorted_node_parts {L R : List Entry} {a b : Int}
    (h : EntriesSorted (L ++ (a, b) :: R)) :
    EntriesSorted L ∧ EntriesSorted R ∧ (∀ x ∈ L, x.1 < a) ∧ ∀ x ∈ R, a < x.1 := by
  rw [EntriesSorted, List.pairwise_append] at h
  obtain ⟨hL, hcons, hmid⟩ := h
  rw [List.pairwise_cons] at hcons
  obtain ⟨haR, hR⟩ := hcons
  exact ⟨hL, hR, fun x hx => hmid x hx (a, b) (List.mem_cons_self _ _),
    fun x hx => haR x hx⟩

theorem find_eq_listFind {t : RBT} (k : Int) (h : EntriesSorted (inorder t)) :
    find t k = listFind (inorder t) k := by
  induction t with
  | nil => rfl
  | node c sz l a b r ihl ihr =>
    obtain ⟨hL, hR, hla, har⟩ := sorted_node_parts (by simpa [inorder] using h)
    simp only [find, inorder]
    split
    · rename_i hk
      rw [ihl hL, listFind_append_lt hk]
    · split
      · rename_i hk₁ hk₂
        rw [ihr hR, listFind_append_gt hk₂ (fun x hx => lt_trans (hla x hx) hk₂)]
      · rename_i hk₁ hk₂
        have hek : k = a := le_antisymm (not_lt.1 hk₂) (not_lt.1 hk₁)
        subst hek
        rw [listFind_append_eq hla]

theorem inorder_ins {t : RBT} (k v : Int) (h : EntriesSorted (inorder t)) :
    inorder (ins t k v) = listInsert (inorder t) k v := by
  induction t with
  | nil => simp [ins, inorder, mkN, listInsert]
  | node c sz l a b r ihl ihr =>
    obtain ⟨hL, hR, hla, har⟩ := sorted_node_parts (by simpa [inorder] using h)
    cases c with
    | red =>
      simp only [ins, inorder]
      split
      · rename_i hk
        rw [listInsert_append_lt v hk, ← ihl hL]
        simp [inorder, mkN]
      · split
        · rename_i hk₁ hk₂
          rw [listInsert_append_gt v hk₂ (fun x hx => lt_trans (hla x hx) hk₂), ← ihr hR]
          simp [inorder, mkN]
        · rename_i hk₁ hk₂
          have hek : k = a := le_antisymm (not_lt.1 hk₂) (not_lt.1 hk₁)
          subst hek
          rw [listInsert_append_eq v hla]
          simp [inorder, mkN]
    | black =>
      simp only [ins, inorder]
      split
      · rename_i hk
        rw [listInsert_append_lt v hk, ← ihl hL, inorder_baliL]
      · split
        · rename_i hk₁ hk₂
          rw [listInsert_append_gt v hk₂ (fun x hx => lt_trans (hla x hx) hk₂), ← ihr hR,
            inorder_baliR]
        · rename_i hk₁ hk₂
          have hek : k = a := le_antisymm (not_lt.1 hk₂) (not_lt.1 hk₁)
          subst hek
          rw [listInsert_append_eq v hla]
          simp [inorder, mkN]

theorem inorder_del {t : RBT} (k : Int) (h : EntriesSorted (inorder t)) :
    inorder (del t k) = listRemove (inorder t) k := by
  induction t with
  | nil => rfl
  | node c sz l a b r ihl ihr =>
    obtain ⟨hL, hR, hla, har⟩ := sorted_node_parts (by simpa [inorder] using h)
    simp only [del, inorder]
    split
    · rename_i hk
      rw [listRemove_append_lt hk, ← ihl hL]
      split
      · exact inorder_balL _ _ _ _
      · simp [inorder, mkN]
    · split
      · rename_i hk₁ hk₂
        rw [listRemove_append_gt hk₂ (fun x hx => lt_trans (hla x hx) hk₂), ← ihr hR]
        split
        · exact inorder_balR _ _ _ _
        · simp [inorder, mkN]
      · rename_i hk₁ hk₂
        have hek : k = a := le_antisymm (not_lt.1 hk₂) (not_lt.1 hk₁)
        subst hek
        rw [listRemove_append_eq hla]
        exact inorder_combine _ _

theorem inorder_insert {t : RBT} (k v : Int) (h : EntriesSorted (inorder t)) :
    inorder (insert t k v) = listInsert (inorder t) k v := by
  simp [insert, inorder_ins k v h]

theorem inorder_remove {t : RBT} (k : Int) (h : EntriesSorted (inorder t)) :
    inorder (remove t k) = listRemove (inorder t) k := by
  simp [remove, inorder_del k h]

theorem insert_sorted {t : RBT} (k v : Int) (h : EntriesSorted (inorder t)) :
    EntriesSorted (inorder (insert t k v)) := by
  rw [inorder_insert k v h]
  exact listInsert_sorted k v h

theorem remove_sorted {t : RBT} (k : Int) (h : EntriesSorted (inorder t)) :
    EntriesSorted (inorder (remove t k)) := by
  rw [inorder_remove k h]
  exact listRemove_sorted k h

theorem RR.of_false {p : Prop} {t : RBT} {n : Nat} (hp : ¬p) :
    RR p t n → ∃ c, Bal t c n
  | .balanced h => ⟨_, h⟩
  | .redred h _ _ => absurd h hp

theorem RR.of_red {p : Prop} {sz : Nat} {a b : RBT} {k v : Int} {n : Nat} :
    RR p (node red sz a k v b) n → ∃ c₁ c₂, Bal a c₁ n ∧ Bal b c₂ n
  | .balanced (.red ha hb) => ⟨_, _, ha, hb⟩
  | .redred _ ha hb => ⟨_, _, ha, hb⟩

theorem RR.imp {p q : Prop} (h : p → q) {t : RBT} {n : Nat} : RR p t n → RR q t n
  | .balanced hb => .balanced hb
  | .redred hp ha hb => .redred (h hp) ha hb

theorem balSetBlack {t : RBT} {c : Color} {n : Nat} :
    Bal t c n → ∃ n', Bal (RBT.setBlack t) Color.black n'
  | .nil => ⟨0, .nil⟩
  | .black hl hr => ⟨_, .black hl hr⟩
  | .red hl hr => ⟨_, .black hl hr⟩

theorem rrSetBlack {p : Prop} {t : RBT} {n : Nat} :
    RR p t n → ∃ n', Bal (RBT.setBlack t) Color.black n'
  | .balanced h => balSetBlack h
  | .redred _ hl hr => ⟨_, .black hl hr⟩

theorem baliL_eq {l : RBT} {c : Color} {n : Nat} (hl : Bal l c n) (k v : Int) (r : RBT) :
    baliL l k v r = mkN black l k v r := by
  unfold baliL
  split <;> first | rfl | nomatch hl

theorem baliR_eq {r : RBT} {c : Color} {n : Nat} (hr : Bal r c n) (l : RBT) (k v : Int) :
    baliR l k v r = mkN black l k v r := by
  unfold baliR
  split <;> first | rfl | nomatch hr

theorem rr_baliL {p : Prop} {l r : RBT} {k v : Int} {n : Nat} {c : Color}
    (hl : RR p l n) (hr : Bal r c n) : ∃ c', Bal (baliL l k v r) c' (n + 1) := by
  unfold baliL
  split
  · match hl with
    | .balanced (.red ha _) => nomatch ha
    | .redred _ (.red ha₁ ha₂) hb => exact ⟨_, .red (.black ha₁ ha₂) (.black hb hr)⟩
  · match hl with
    | .balanced (.red _ hb) => nomatch hb
    | .redred _ ha (.red hb₁ hb₂) => exact ⟨_, .red (.black ha hb₁) (.black hb₂ hr)⟩
  · rename_i H1 H2
    cases hl with
    | balanced hb => exact ⟨_, .black hb hr⟩
    | redred hp ha hb =>
      cases ha with
      | red ha₁ ha₂ => exact (H1 _ _ _ _ _ _ _ _ _ rfl).elim
      | nil =>
        cases hb with
        | red hb₁ hb₂ => exact (H2 _ _ _ _ _ _ _ _ _ rfl).elim
        | nil => exact ⟨_, .black (.red .nil .nil) hr⟩
      | black ha₁ ha₂ =>
        cases hb with
        | red hb₁ hb₂ => exact (H2 _ _ _ _ _ _ _ _ _ rfl).elim
        | black hb₁ hb₂ =>
          exact ⟨_, .black (.red (.black ha₁ ha₂) (.black hb₁ hb₂)) hr⟩

theorem rr_baliR {p : Prop} {l r : RBT} {k v : Int} {n : Nat} {c : Color}
    (hl : Bal l c n) (hr : RR p r n) : ∃ c', Bal (baliR l k v r) c' (n + 1) := by
  unfold baliR
  split
  · match hr with
    | .balanced (.red _ hb) => nomatch hb
    | .redred _ ha (.red hb₁ hb₂) => exact ⟨_, .red (.black hl ha) (.black hb₁ hb₂)⟩
  · match hr with
    | .balanced (.red ha _) => nomatch ha
    | .redred _ (.red ha₁ ha₂) hb => exact ⟨_, .red (.black hl ha₁) (.black ha₂ hb)⟩
  · rename_i H1 H2
    cases hr with
    | balanced hb => exact ⟨_, .black hl hb⟩
    | redred hp ha hb =>
      cases hb with
      | red hb₁ hb₂ => exact (H1 _ _ _ _ _ _ _ _ _ rfl).elim
      | nil =>
        cases ha with
        | red ha₁ ha₂ => exact (H2 _ _ _ _ _ _ _ _ _ rfl).elim
        | nil => exact ⟨_, .black hl (.red .nil .nil)⟩
      | black hb₁ hb₂ =>
        cases ha with
        | red ha₁ ha₂ => exact (H2 _ _ _ _ _ _ _ _ _ rfl).elim
        | black ha₁ ha₂ =>
          exact ⟨_, .black hl (.red (.black ha₁ ha₂) (.black hb₁ hb₂))⟩

theorem redRoot_false_of_black {t : RBT} {n : Nat} (h : Bal t Color.black n) :
    redRoot t = false := by
  cases h <;> rfl

theorem bal_ins {t : RBT} {c : Color} {n : Nat} (x y : Int) (h : Bal t c n) :
    RR (redRoot t = true) (ins t x y) n := by
  induction h with
  | nil => exact .balanced (.red .nil .nil)
  | @red l r k v m sz hl hr ihl ihr =>
    simp only [ins]
    split
    · obtain ⟨cl, hli⟩ := ihl.of_false (by simp [redRoot_false_of_black hl])
      exact .redred rfl hli hr
    · split
      · obtain ⟨cr, hri⟩ := ihr.of_false (by simp [redRoot_false_of_black hr])
        exact .redred rfl hl hri
      · exact .redred rfl hl hr
  | @black l r k v m sz c₁ c₂ hl hr ihl ihr =>
    simp only [ins]
    split
    · obtain ⟨c', h'⟩ := rr_baliL ihl hr
      exact .balanced h'
    · split
      · obtain ⟨c', h'⟩ := rr_baliR hl ihr
        exact .balanced h'
      · exact .balanced (.black hl hr)

theorem bal_insert {t : RBT} {c : Color} {n : Nat} (x y : Int) (h : Bal t c n) :
    ∃ n', Bal (RBT.insert t x y) Color.black n' :=
  rrSetBlack (bal_ins x y h)

theorem bal_balL {l r : RBT} {x y : Int} {n : Nat} {cr : Color}
    (hl : RR True l n) (hr : Bal r cr (n + 1)) :
    RR (cr = Color.red) (balL l x y r) (n + 1) := by
  unfold balL
  split
  · obtain ⟨ca, cb, ha, hb⟩ := hl.of_red
    cases cr with
    | red => exact .redred rfl (.black ha hb) hr
    | black => exact .balanced (.red (.black ha hb) hr)
  · rename_i H
    have hbl : ∃ cb, Bal l cb n := by
      cases hl with
      | balanced hb => exact ⟨_, hb⟩
      | redred hp ha hb => exact (H _ _ _ _ _ rfl).elim
    obtain ⟨cb, hbl⟩ := hbl
    split
    · cases hr with
      | black ha hb =>
        obtain ⟨c', h'⟩ := rr_baliR hbl (.redred trivial ha hb)
        exact .balanced h'
    · cases hr with
      | red h₁ h₂ =>
        cases h₁ with
        | black ha hb =>
          cases h₂ with
          | black hc hd =>
            obtain ⟨c', h'⟩ := rr_baliR hb (.redred trivial hc hd)
            exact .redred rfl (.black hbl ha) h'
    · rename_i H1 H2
      cases r with
      | nil => cases hr
      | node cr' szr rl rk rv rr =>
        cases cr' with
        | black => exact (H1 _ _ _ _ _ rfl).elim
        | red =>
          cases hr with
          | red h₁ h₂ =>
            cases h₁ with
            | black ha hb => exact (H2 _ _ _ _ _ _ _ _ _ rfl).elim

theorem bal_balR {l r : RBT} {x y : Int} {n : Nat} {cl : Color}
    (hl : Bal l cl (n + 1)) (hr : RR True r n) :
    RR (cl = Color.red) (balR l x y r) (n + 1) := by
  unfold balR
  split
  · obtain ⟨cb, cc, hb, hc⟩ := hr.of_red
    cases cl with
    | red => exact .redred rfl hl (.black hb hc)
    | black => exact .balanced (.red hl (.black hb hc))
  · rename_i H
    have hbr : ∃ cb, Bal r cb n := by
      cases hr with
      | balanced hb => exact ⟨_, hb⟩
      | redred hp ha hb => exact (H _ _ _ _ _ rfl).elim
    obtain ⟨cb, hbr⟩ := hbr
    split
    · cases hl with
      | black ha hb =>
        obtain ⟨c', h'⟩ := rr_baliL (.redred trivial ha hb) hbr
        exact .balanced h'
    · cases hl with
      | red h₁ h₂ =>
        cases h₂ with
        | black hb hc =>
          cases h₁ with
          | black ha ha' =>
            obtain ⟨c', h'⟩ := rr_baliL (.redred trivial ha ha') hb
            exact .redred rfl h' (.black hc hbr)
    · rename_i H1 H2
      cases l with
      | nil => cases hl
      | node cl' szl ll lk lv lr =>
        cases cl' with
        | black => exact (H1 _ _ _ _ _ rfl).elim
        | red =>
          cases hl with
          | red h₁ h₂ =>
            cases h₂ with
            | black hb hc => exact (H2 _ _ _ _ _ _ _ _ _ rfl).elim

theorem bal_combine {l r : RBT} {n : Nat} {c₁ c₂ : Color}
    (hl : Bal l c₁ n) (hr : Bal r c₂ n) :
    RR (c₁ = Color.black → c₂ ≠ Color.black) (combine l r) n := by
  induction l, r using combine.induct generalizing n c₁ c₂ with
  | case1 t =>
    cases hl
    rw [combine.eq_def]
    cases t with
    | nil => exact .balanced hr
    | node ct szt lt kt vt rt =>
      cases ct with
      | red => exact .balanced hr
      | black => exact .balanced hr
  | case2 t h =>
    cases hr
    cases t with
    | nil => exact absurd rfl h
    | node ct szt lt kt vt rt =>
      rw [combine.eq_def]
      cases ct with
      | red => exact .balanced hl
      | black => exact .balanced hl
  | case3 sz a x y b sz₁ c z w d sz₂ a₁ x₁ y₁ b₁ heq ih =>
    cases hl with
    | red ha hb =>
      cases hr with
      | red hc hd =>
        have hIH := (ih hb hc).of_false (fun h => h rfl rfl)
        obtain ⟨cbc, hbc⟩ := hIH
        rw [heq] at hbc
        cases hbc with
        | red h₁ h₂ =>
          rw [combine.eq_def]
          simp only [heq]
          exact .redred nofun (.red ha h₁) (.red h₂ hd)
  | case4 sz a x y b sz₁ c z w d hne ih =>
    cases hl with
    | red ha hb =>
      cases hr with
      | red hc hd =>
        have hIH := (ih hb hc).of_false (fun h => h rfl rfl)
        obtain ⟨cbc, hbc⟩ := hIH
        cases hbc2 : combine b c with
        | nil =>
          rw [hbc2] at hbc
          cases hbc
          rw [combine.eq_def]
          simp only [hbc2]
          exact .redred nofun ha (.red .nil hd)
        | node cbc' szbc lbc kbc vbc rbc =>
          cases cbc' with
          | red => exact absurd hbc2 (by intro h; exact hne _ _ _ _ _ h)
          | black =>
            rw [hbc2] at hbc
            cases hbc with
            | black hu hv =>
              rw [combine.eq_def]
              simp only [hbc2]
              exact .redred nofun ha (.red (.black hu hv) hd)
  | case5 sz a x y b sz₁ c z w d sz₂ a₁ x₁ y₁ b₁ heq ih =>
    cases hl with
    | black ha hb =>
      cases hr with
      | black hc hd =>
        have hIH := ih hb hc
        rw [heq] at hIH
        rw [combine.eq_def]
        simp only [heq]
        match hIH with
        | .balanced (.red h₁ h₂) =>
          exact .balanced (.red (.black ha h₁) (.black h₂ hd))
        | .redred _ h₁ h₂ =>
          exact .balanced (.red (.black ha h₁) (.black h₂ hd))
  | case6 sz a x y b sz₁ c z w d hne ih =>
    cases hl with
    | black ha hb =>
      cases hr with
      | black hc hd =>
        have hIH := ih hb hc
        cases hbc2 : combine b c with
        | nil =>
          rw [hbc2] at hIH
          match hIH with
          | .balanced hbb =>
            cases hbb
            rw [combine.eq_def]
            simp only [hbc2]
            have h₂ : RR (Color.black = Color.red) (balL a x y (mkN Color.black nil z w d)) _ :=
              bal_balL (RR.balanced ha) (Bal.black Bal.nil hd)
            obtain ⟨cf, hf⟩ := h₂.of_false (fun h => nomatch h)
            exact .balanced hf
        | node cbc' szbc lbc kbc vbc rbc =>
          cases cbc' with
          | red => exact absurd hbc2 (by intro h; exact hne _ _ _ _ _ h)
          | black =>
            rw [hbc2] at hIH
            match hIH with
            | .balanced hbb =>
              rw [combine.eq_def]
              simp only [hbc2]
              have h₂ : RR (Color.black = Color.red)
                  (balL a x y (mkN Color.black (node Color.black szbc lbc kbc vbc rbc) z w d)) _ :=
                bal_balL (RR.balanced ha) (Bal.black hbb hd)
              obtain ⟨cf, hf⟩ := h₂.of_false (fun h => nomatch h)
              exact .balanced hf
  | case7 t sz b x y c h₁ h₂ ih =>
    cases t with
    | nil => exact absurd rfl h₁
    | node ct szt lt kt vt rt =>
      cases ct with
      | red => exact absurd rfl (h₂ _ _ _ _ _)
      | black =>
        cases hr with
        | red hb hc =>
          have hl' := hl
          cases hl' with
          | black hu hv =>
            have hIH := (ih hl hb).of_false (fun h => h rfl rfl)
            obtain ⟨cc', hcc⟩ := hIH
            rw [combine.eq_def]
            exact .redred (fun _ h => nomatch h) hcc hc
  | case8 sz a x y b t h₁ h₂ h₃ ih =>
    cases t with
    | nil => exact absurd rfl h₁
    | node ct szt lt kt vt rt =>
      cases ct with
      | red => exact absurd rfl (h₂ _ _ _ _ _)
      | black =>
        cases hl with
        | red ha hb =>
          have hr' := hr
          cases hr' with
          | black hu hv =>
            have hIH := (ih hb hr).of_false (fun h => h rfl rfl)
            obtain ⟨cc', hcc⟩ := hIH
            rw [combine.eq_def]
            exact .redred nofun ha hcc

theorem bal_del {t : RBT} {c : Color} {n : Nat} (x : Int) (h : Bal t c n) :
    DelBal (blackRoot t) (del t x) n := by
  induction h with
  | nil => exact ⟨Color.black, .nil⟩
  | @black l r k v m sz c₁ c₂ hl hr ihl ihr =>
    refine ⟨m, rfl, ?_⟩
    simp only [del]
    split
    · split
      · rename_i hXlt hBl
        rw [hBl] at ihl
        obtain ⟨m₂, hm, hrr⟩ := ihl
        subst hm
        exact (bal_balL hrr hr).imp fun _ => trivial
      · rename_i hXlt hBl
        have hBl' : blackRoot l = false := by simpa using hBl
        rw [hBl'] at ihl
        obtain ⟨cl, hdl⟩ := ihl
        exact .redred trivial hdl hr
    · split
      · split
        · rename_i hXlt hXgt hBr
          rw [hBr] at ihr
          obtain ⟨m₂, hm, hrr⟩ := ihr
          subst hm
          exact (bal_balR hl hrr).imp fun _ => trivial
        · rename_i hXlt hXgt hBr
          have hBr' : blackRoot r = false := by simpa using hBr
          rw [hBr'] at ihr
          obtain ⟨cr, hdr⟩ := ihr
          exact .redred trivial hl hdr
      · exact (bal_combine hl hr).imp fun _ => trivial
  | @red l r k v m sz hl hr ihl ihr =>
    simp only [del]
    split
    · split
      · rename_i hXlt hBl
        rw [hBl] at ihl
        obtain ⟨m₂, hm, hrr⟩ := ihl
        subst hm
        exact (bal_balL hrr hr).of_false (fun hh => nomatch hh)
      · rename_i hXlt hBl
        cases hl with
        | nil => exact ⟨_, .red .nil hr⟩
        | black hu hv => simp [blackRoot] at hBl
    · split
      · split
        · rename_i hXlt hXgt hBr
          rw [hBr] at ihr
          obtain ⟨m₂, hm, hrr⟩ := ihr
          subst hm
          exact (bal_balR hl hrr).of_false (fun hh => nomatch hh)
        · rename_i hXlt hXgt hBr
          cases hr with
          | nil => exact ⟨_, .red hl .nil⟩
          | black hu hv => simp [blackRoot] at hBr
      · exact (bal_combine hl hr).of_false (fun hh => hh rfl rfl)

theorem bal_remove {t : RBT} {c : Color} {n : Nat} (x : Int) (h : Bal t c n) :
    ∃ n', Bal (RBT.remove t x) Color.black n' := by
  have hd := bal_del x h
  cases hB : blackRoot t with
  | true =>
    rw [hB] at hd
    obtain ⟨m, hm, hrr⟩ := hd
    exact rrSetBlack hrr
  | false =>
    rw [hB] at hd
    obtain ⟨c', hb⟩ := hd
    exact balSetBlack hb

theorem height_le_of_bal {t : RBT} {c : Color} {n : Nat} (h : Bal t c n) :
    height t ≤ 2 * n + 1 ∧ (c = Color.black → height t ≤ 2 * n) := by
  induction h with
  | nil => exact ⟨by simp [height], fun _ => by simp [height]⟩
  | red hl hr ihl ihr =>
    refine ⟨?_, fun hc => nomatch hc⟩
    have h₁ := ihl.2 rfl
    have h₂ := ihr.2 rfl
    simp only [height]
    omega
  | black hl hr ihl ihr =>
    have h₁ := ihl.1
    have h₂ := ihr.1
    constructor
    · simp only [height]; omega
    · intro _; simp only [height]; omega

theorem pow_le_size_of_bal {t : RBT} {c : Color} {n : Nat} (h : Bal t c n) :
    2 ^ n ≤ (inorder t).length + 1 := by
  induction h with
  | nil => simp [inorder]
  | red hl hr ihl ihr =>
    simp only [inorder, List.length_append, List.length_cons]
    omega
  | black hl hr ihl ihr =>
    simp only [inorder, List.length_append, List.length_cons]
    rw [pow_succ]
    omega

theorem height_le_log {t : RBT} {n : Nat} (h : Bal t Color.black n) (N : Nat)
    (hsize : (inorder t).length ≤ N) :
    height t ≤ 2 * Nat.log 2 (N + 1) := by
  have h₁ := (height_le_of_bal h).2 rfl
  have h₂ := pow_le_size_of_bal h
  have h₃ : 2 ^ n ≤ N + 1 := le_trans h₂ (by omega)
  have h₄ : n ≤ Nat.log 2 (N + 1) :=
    (Nat.pow_le_iff_le_log (by norm_num) (by omega)).1 h₃
  omega

theorem find_of_forall_ne {t : RBT} {k : Int}
    (h : ∀ x ∈ inorder t, x.1 ≠ k) : find t k = none := by
  induction t with
  | nil => rfl
  | node c sz l a b r ihl ihr =>
    have hmem : ((a, b) : Entry) ∈ inorder (node c sz l a b r) := by simp [inorder]
    simp only [find]
    split
    · exact ihl fun x hx => h x (by simp [inorder, hx])
    · split
      · exact ihr fun x hx => h x (by simp [inorder, hx])
      · rename_i hk₁ hk₂
        exact absurd (le_antisymm (not_lt.1 hk₁) (not_lt.1 hk₂)) (h (a, b) hmem)

end RBT

theorem listFind_of_forall_ne {l : List Entry} {k : Int}
    (h : ∀ x ∈ l, x.1 ≠ k) : listFind l k = none := by
  induction l with
  | nil => rfl
  | cons hd t ih =>
    obtain ⟨a, b⟩ := hd
    simp only [listFind]
    split
    · rfl
    · split
      · exact ih fun x hx => h x (List.mem_cons_of_mem _ hx)
      · rename_i hk₁ hk₂
        exact absurd (le_antisymm (not_lt.1 hk₁) (not_lt.1 hk₂))
          (h (a, b) (List.mem_cons_self _ _))

theorem run_inv (ops : List MapOp) (m : List Entry) (t : RBT)
    (h₁ : RBT.inorder t = m) (h₂ : EntriesSorted m) (h₃ : RBT.SzOk t)
    (h₄ : ∃ n, RBT.Bal t Color.black n) :
    RBT.inorder (List.foldl applyTree t ops) = List.foldl applyArr m ops
    ∧ EntriesSorted (List.foldl applyArr m ops)
    ∧ RBT.SzOk (List.foldl applyTree t ops)
    ∧ (∃ n, RBT.Bal (List.foldl applyTree t ops) Color.black n)
    ∧ (List.foldl applyArr m ops).length ≤ m.length + ops.length := by
  induction ops generalizing m t with
  | nil =>
    simp only [List.foldl_nil]
    exact ⟨h₁, h₂, h₃, h₄, by omega⟩
  | cons op rest ih =>
    obtain ⟨n₀, hbal⟩ := h₄
    have hsort : EntriesSorted (RBT.inorder t) := h₁ ▸ h₂
    have step₁ : RBT.inorder (applyTree t op) = applyArr m op := by
      cases op with
      | insert k v => simp [applyTree, applyArr, RBT.inorder_insert k v hsort, h₁]
      | remove k => simp [applyTree, applyArr, RBT.inorder_remove k hsort, h₁]
    have step₂ : EntriesSorted (applyArr m op) := by
      cases op with
      | insert k v => exact listInsert_sorted k v h₂
      | remove k => exact listRemove_sorted k h₂
    have step₃ : RBT.SzOk (applyTree t op) := by
      cases op with
      | insert k v => exact RBT.szOk_insert k v h₃
      | remove k => exact RBT.szOk_remove k h₃
    have step₄ : ∃ n, RBT.Bal (applyTree t op) Color.black n := by
      cases op with
      | insert k v => exact RBT.bal_insert k v hbal
      | remove k => exact RBT.bal_remove k hbal
    have step₅ : (applyArr m op).length ≤ m.length + 1 := by
      cases op with
      | insert k v => exact length_listInsert_le m k v
      | remove k => exact le_trans (length_listRemove_le m k) (by omega)
    have hrec := ih (applyArr m op) (applyTree t op) step₁ step₂ step₃ step₄
    simp only [List.foldl_cons]
    refine ⟨hrec.1, hrec.2.1, hrec.2.2.1, hrec.2.2.2.1, ?_⟩
    have := hrec.2.2.2.2
    simp only [List.length_cons]
    omega

theorem runTree_props (ops : List MapOp) :
    RBT.inorder (runTree ops) = runArr ops
    ∧ EntriesSorted (runArr ops)
    ∧ RBT.SzOk (runTree ops)
    ∧ (∃ n, RBT.Bal (runTree ops) Color.black n)
    ∧ (runArr ops).length ≤ ops.length := by
  have h := run_inv ops [] RBT.nil rfl (by constructor) trivial ⟨0, .nil⟩
  simp only [List.length_nil, Nat.zero_add] at h
  exact h

theorem seqLoopDown_zero_none (fuel : Nat) (i e : Int) (acc : List Int)
    (h : e < i) : seqLoopDown fuel i e 0 acc = none := by
  induction fuel generalizing acc with
  | zero => simp [seqLoopDown, h]
  | succ f ih =>
    simp only [seqLoopDown, if_pos h]
    simpa using ih (acc ++ [i])

theorem seqLoopUp_terminates {step : Int} (hstep : 0 < step) :
    ∀ (fuel : Nat) (i e : Int) (acc : List Int), (e - i).toNat ≤ fuel →
      ∃ res, seqLoopUp fuel i e step acc = some res := by
  intro fuel
  induction fuel with
  | zero =>
    intro i e acc hle
    have : ¬ i < e := by omega
    exact ⟨acc, by simp [seqLoopUp, this]⟩
  | succ f ih =>
    intro i e acc hle
    by_cases hc : i < e
    · have : (e - (i + step)).toNat ≤ f := by omega
      obtain ⟨res, hres⟩ := ih (i + step) e (acc ++ [i]) this
      exact ⟨res, by simp [seqLoopUp, if_pos hc, hres]⟩
    · exact ⟨acc, by simp [seqLoopUp, hc]⟩

theorem seqLoopDown_terminates {step : Int} (hstep : step < 0) :
    ∀ (fuel : Nat) (i e : Int) (acc : List Int), (i - e).toNat ≤ fuel →
      ∃ res, seqLoopDown fuel i e step acc = some res := by
  intro fuel
  induction fuel with
  | zero =>
    intro i e acc hle
    have : ¬ e < i := by omega
    exact ⟨acc, by simp [seqLoopDown, this]⟩
  | succ f ih =>
    intro i e acc hle
    by_cases hc : e < i
    · have : ((i + step) - e).toNat ≤ f := by omega
      obtain ⟨res, hres⟩ := ih (i + step) e (acc ++ [i]) this
      exact ⟨res, by simp [seqLoopDown, if_pos hc, hres]⟩
    · exact ⟨acc, by simp [seqLoopDown, hc]⟩

/-! ## Claim theorems -/

/-- C1: persistence — for every map `m1`, key `k` and value `v`, producing
`m2 = m1.insert(k, v)` or `m2 = m1.remove(k)` leaves `m1` observably
unchanged: `m1.find(k)` and `m1`'s full ascending iteration, evaluated after
the new map is produced, equal their values from before the call, for both
the array and the tree representation (in the pure embedding every operation
returns a new value and never mutates its receiver). -/
theorem C1_persistence (m : List Entry) (t : RBT) (k v : Int) :
    ((let _m₂ := listInsert m k v
      (listFind m k, m)) = (listFind m k, m)
    ∧ (let _m₃ := listRemove m k
      (listFind m k, m)) = (listFind m k, m))
    ∧ ((let _t₂ := RBT.insert t k v
      (RBT.find t k, RBT.inorder t)) = (RBT.find t k, RBT.inorder t)
    ∧ (let _t₃ := RBT.remove t k
      (RBT.find t k, RBT.inorder t)) = (RBT.find t k, RBT.inorder t)) :=
  ⟨⟨rfl, rfl⟩, ⟨rfl, rfl⟩⟩

/-- C2: round-trip — for every valid map (strictly sorted entries), every
key `k` and value `v`, `m.insert(k, v).find(k)` returns `v` and
`m.remove(k).contains(k)` returns `false`, for both representations. -/
theorem C2_roundtrip (m : List Entry) (t : RBT) (k v : Int)
    (hm : EntriesSorted m) (ht : EntriesSorted (RBT.inorder t)) :
    listFind (listInsert m k v) k = some v
    ∧ listContains (listRemove m k) k = false
    ∧ RBT.find (RBT.insert t k v) k = some v
    ∧ RBT.contains (RBT.remove t k) k = false := by
  refine ⟨listFind_listInsert m k v, ?_, ?_, ?_⟩
  · simp [listContains, listFind_listRemove_self k hm]
  · have hs := RBT.insert_sorted k v ht
    rw [RBT.find_eq_listFind k hs, RBT.inorder_insert k v ht]
    exact listFind_listInsert _ k v
  · have hs := RBT.remove_sorted k ht
    have hnone : RBT.find (RBT.remove t k) k = none := by
      rw [RBT.find_eq_listFind k hs, RBT.inorder_remove k ht]
      exact listFind_listRemove_self k ht
    simp [RBT.contains, hnone]

/-- C2 witness: the round-trip theorem evaluated at a concrete map. -/
theorem C2_roundtrip_witness :
    listFind (listInsert [((1 : Int), (1 : Int))] 5 7) 5 = some 7
    ∧ listContains (listRemove [((1 : Int), (1 : Int))] 5) 5 = false
    ∧ RBT.find (RBT.insert RBT.nil 5 7) 5 = some 7
    ∧ RBT.contains (RBT.remove RBT.nil 5) 5 = false :=
  C2_roundtrip [((1 : Int), (1 : Int))] RBT.nil 5 7 (by decide) (by decide)

/-- C3: ordering invariant — for every map built by an arbitrary finite
sequence of insert and remove operations starting from the empty map, the
full ascending iteration yields entries with strictly increasing keys, for
both the array and the tree representation. -/
theorem C3_ordering (ops : List MapOp) :
    List.Pairwise (fun p q : Entry => p.1 < q.1) (runArr ops)
    ∧ List.Pairwise (fun p q : Entry => p.1 < q.1) (RBT.inorder (runTree ops)) := by
  have h := runTree_props ops
  exact ⟨h.2.1, by rw [h.1]; exact h.2.1⟩

/-- C4: representation equivalence — applying any finite operation sequence
to the array representation and to the tree representation directly yields
identical observable results: the same entry sequence, the same size, and
the same `find`/`contains` answers at every key. -/
theorem C4_representation_equiv (ops : List MapOp) :
    RBT.inorder (runTree ops) = runArr ops
    ∧ RBT.size (runTree ops) = listSize (runArr ops)
    ∧ (∀ k, RBT.find (runTree ops) k = listFind (runArr ops) k)
    ∧ ∀ k, RBT.contains (runTree ops) k = listContains (runArr ops) k := by
  have h := runTree_props ops
  have hsz := RBT.size_eq_length_inorder h.2.2.1
  have hsort : EntriesSorted (RBT.inorder (runTree ops)) := by
    rw [h.1]; exact h.2.1
  refine ⟨h.1, ?_, ?_, ?_⟩
  · rw [hsz, h.1]; rfl
  · intro k
    rw [RBT.find_eq_listFind k hsort, h.1]
  · intro k
    simp only [RBT.contains, listContains]
    rw [RBT.find_eq_listFind k hsort, h.1]

/-- C5: removing an absent key is a no-op — for every valid map and key not
contained in it, `remove` returns a map observationally equal to the
receiver (the very same entry sequence for the array representation; the
same entries and the same size for the tree representation). -/
theorem C5_remove_absent (m : List Entry) (t : RBT) (k : Int)
    (_hm : EntriesSorted m) (hmf : listContains m k = false)
    (ht : EntriesSorted (RBT.inorder t)) (hsz : RBT.SzOk t)
    (htf : RBT.contains t k = false) :
    listRemove m k = m
    ∧ RBT.inorder (RBT.remove t k) = RBT.inorder t
    ∧ RBT.size (RBT.remove t k) = RBT.size t := by
  have hmf' : listFind m k = none := by
    cases hfind : listFind m k with
    | none => rfl
    | some v => rw [listContains, hfind] at hmf; simp at hmf
  have htf' : RBT.find t k = none := by
    cases hfind : RBT.find t k with
    | none => rfl
    | some v => rw [RBT.contains, hfind] at htf; simp at htf
  have hio : RBT.inorder (RBT.remove t k) = RBT.inorder t := by
    rw [RBT.inorder_remove k ht]
    exact listRemove_absent (by rw [← RBT.find_eq_listFind k ht]; exact htf')
  refine ⟨listRemove_absent hmf', hio, ?_⟩
  rw [RBT.size_eq_length_inorder hsz, RBT.size_eq_length_inorder (RBT.szOk_remove k hsz), hio]

/-- C5 witness: removing an absent key from concrete maps. -/
theorem C5_remove_absent_witness :
    listRemove [((1 : Int), (1 : Int))] 5 = [((1 : Int), (1 : Int))]
    ∧ RBT.inorder (RBT.remove (RBT.insert RBT.nil 1 1) 5)
      = RBT.inorder (RBT.insert RBT.nil 1 1)
    ∧ RBT.size (RBT.remove (RBT.insert RBT.nil 1 1) 5)
      = RBT.size (RBT.insert RBT.nil 1 1) :=
  C5_remove_absent [((1 : Int), (1 : Int))] (RBT.insert RBT.nil 1 1) 5
    (by decide) (by decide) (by decide) (by decide) (by decide)

/-- C6: lookup of a missing key never fails — for every map and every key
carried by none of its entries, `find` returns the absent indicator `none`
and `contains` returns `false`, for both representations; the operations
are total and raise no error. -/
theorem C6_missing_key (m : List Entry) (t : RBT) (k : Int)
    (hm : ∀ x ∈ m, x.1 ≠ k) (ht : ∀ x ∈ RBT.inorder t, x.1 ≠ k) :
    listFind m k = none ∧ listContains m k = false
    ∧ RBT.find t k = none ∧ RBT.contains t k = false := by
  have h₁ := listFind_of_forall_ne hm
  have h₂ := RBT.find_of_forall_ne ht
  exact ⟨h₁, by simp [listContains, h₁], h₂, by simp [RBT.contains, h₂]⟩

/-- C6 witness: looking up a missing key in concrete maps. -/
theorem C6_missing_key_witness :
    listFind [((1 : Int), (1 : Int))] 2 = none
    ∧ listContains [((1 : Int), (1 : Int))] 2 = false
    ∧ RBT.find (RBT.insert RBT.nil 1 1) 2 = none
    ∧ RBT.contains (RBT.insert RBT.nil 1 1) 2 = false :=
  C6_missing_key [((1 : Int), (1 : Int))] (RBT.insert RBT.nil 1 1) 2
    (by decide) (by decide)

/-- C7: size consistency — for every map reachable by a finite sequence of
inserts and removes from the empty map, `size()` equals the number of
entries yielded by a full ascending iteration, for both representations
(the tree's size is the cached root count). -/
theorem C7_size_consistency (ops : List MapOp) :
    RBT.size (runTree ops) = (RBT.inorder (runTree ops)).length
    ∧ listSize (runArr ops) = (runArr ops).length := by
  have h := runTree_props ops
  exact ⟨RBT.size_eq_length_inorder h.2.2.1, rfl⟩

/-- C8: balance bound — after any finite sequence of `n` inserts and
removes starting from the empty tree, the height of the resulting tree is
at most `2 · log₂(n + 1)`. -/
theorem C8_balance_bound (ops : List MapOp) :
    RBT.height (runTree ops) ≤ 2 * Nat.log 2 (ops.length + 1) := by
  have h := runTree_props ops
  obtain ⟨n, hbal⟩ := h.2.2.2.1
  refine RBT.height_le_log hbal ops.length ?_
  rw [h.1]
  exact h.2.2.2.2

/-- C9 counterexample: the claim asserts that `Sequence(start, end, 0)` with
`start < end` does not terminate, but with `step = 0` the code takes the
descending branch, whose guard `i > end` is immediately false, so the call
returns the empty vector after zero loop iterations: at `start = 0`,
`end = 5` the embedding already succeeds with zero fuel. -/
theorem C9_counterexample :
    SequenceFuel 0 0 5 0 = some [] ∧ ((0 : Int) < 5) := by
  constructor
  · decide
  · decide

/-- C9 amended: the call `Sequence(start, end, 0)` fails to terminate
exactly when `start > end` (the descending loop guard stays true and the
index never moves); the fuelled embedding of `Sequence` succeeds for some
fuel whenever `step ≠ 0` or `start ≤ end`. -/
theorem C9_amended (start e step : Int) :
    (e < start → ∀ fuel, SequenceFuel fuel start e 0 = none)
    ∧ ((step ≠ 0 ∨ start ≤ e) → ∃ fuel res, SequenceFuel fuel start e step = some res) := by
  constructor
  · intro h fuel
    simp only [SequenceFuel]
    rw [if_neg (by omega)]
    exact seqLoopDown_zero_none fuel start e [] h
  · intro h
    rcases lt_trichotomy step 0 with hs | hs | hs
    · obtain ⟨res, hres⟩ := seqLoopDown_terminates hs ((start - e).toNat) start e [] le_rfl
      exact ⟨_, res, by simp only [SequenceFuel]; rw [if_neg (by omega)]; exact hres⟩
    · subst hs
      have hse : start ≤ e := by
        rcases h with h | h
        · exact absurd rfl h
        · exact h
      refine ⟨0, [], ?_⟩
      simp only [SequenceFuel]
      rw [if_neg (by omega)]
      simp only [seqLoopDown]
      rw [if_neg (by omega)]
    · obtain ⟨res, hres⟩ := seqLoopUp_terminates hs ((e - start).toNat) start e [] le_rfl
      exact ⟨_, res, by simp only [SequenceFuel]; rw [if_pos hs]; exact hres⟩

/-- C9 witness: with `start = 5 > 0 = end` and `step = 0` no fuel suffices,
while with `step = 1` the embedding succeeds. -/
theorem C9_amended_witness :
    SequenceFuel 3 5 0 0 = none
    ∧ ∃ fuel res, SequenceFuel fuel 5 0 1 = some res :=
  ⟨(C9_amended 5 0 0).1 (by decide) 3, (C9_amended 5 0 1).2 (Or.inl (by decide))⟩

/-- C10: `Reversed` is an involution — reversing a vector twice yields the
original vector. -/
theorem C10_reversed_involution (v : List Int) :
    Reversed (Reversed v) = v := by
  simp [Reversed]

end FirestoreImmutable